import Mathlib

/-!
# Verification of the `redact` secret-redaction engine

Shallow embedding of `redact.py` (class `Redacter` and the pure parts of
`Redacter.create`).  Strings are modelled as `List Char`.  Compiled regular
expressions are modelled by the small AST `RE` below, which covers the
constructs used by the patterns that appear in the specification and the
tests (literal characters, character classes, concatenation, greedy `+`/`*`
over a class, and capturing groups); `matches` implements Python's
backtracking leftmost/greedy semantics for this fragment and `findall`
implements `re.findall` (group capture, non-overlapping, left-to-right).

The external validator subprocess is modelled as an optional pure predicate
`Option (List Char → Bool)` (exit status 0 ↦ `true`).  Because the
subprocess call is the observable side effect of `Redacter.validate`,
`Redacter.redact` additionally returns the list of candidate strings on
which the validator was invoked, in order; the redacted line and the
post-state are exactly those of the Python code.
-/

set_option autoImplicit false

/-- The character set of Python 2's `\s` / `str.strip()` (ASCII whitespace). -/
def isPySpace (c : Char) : Bool :=
  c = ' ' || c = '\t' || c = '\n' || c = '\x0b' || c = '\x0c' || c = '\r'

/-- Python `str.strip()`: remove leading and trailing whitespace. -/
def pyStrip (s : List Char) : List Char :=
  ((s.dropWhile isPySpace).reverse.dropWhile isPySpace).reverse

/-- Python `line.split('=')`: split on every `'='`, keeping empty segments.
`pySplitEq s` is always non-empty. -/
def pySplitEq : List Char → List (List Char)
  | [] => [[]]
  | c :: rest =>
    match pySplitEq rest with
    | [] => [[]]
    | p :: ps => if c = '=' then [] :: p :: ps else (c :: p) :: ps

/-- Python `'='.join(parts)`. -/
def joinEq : List (List Char) → List Char
  | [] => []
  | [p] => p
  | p :: q :: ps => p ++ '=' :: joinEq (q :: ps)

/-- Association-list lookup, the functional reading of Python `dict`
indexing / membership (`secret in self.substitutions`). -/
def alookup (tbl : List (List Char × List Char)) (k : List Char) : Option (List Char) :=
  match tbl with
  | [] => none
  | (k', v) :: rest => if k' = k then some v else alookup rest k

/-- Worker for `pyReplace` on a non-empty needle.  Fuel-based so that it is
structurally recursive (the fuel is always at least the length of the
string, so the `0` case is never hit on well-fuelled calls). -/
def pyReplaceGo (sec sub : List Char) : Nat → List Char → List Char
  | _, [] => []
  | 0, s => s
  | fuel + 1, c :: rest =>
    if List.isPrefixOf sec (c :: rest) then
      sub ++ pyReplaceGo sec sub fuel ((c :: rest).drop sec.length)
    else
      c :: pyReplaceGo sec sub fuel rest

/-- Python `s.replace(sec, sub)`: replace all non-overlapping occurrences,
scanning left to right.  An empty needle inserts `sub` before every
character and at the end, as in Python. -/
def pyReplace (s sec sub : List Char) : List Char :=
  if sec = [] then sub ++ s.foldr (fun c acc => c :: (sub ++ acc)) []
  else pyReplaceGo sec sub s.length s

/-- Stable insertion (descending by cleartext length) used by
`sortByLenDesc`: the new element goes before the first element that is not
longer, so earlier elements win ties, making the sort stable. -/
def insertByLen (x : List Char × List Char) :
    List (List Char × List Char) → List (List Char × List Char)
  | [] => [x]
  | y :: ys =>
    if y.1.length ≤ x.1.length then x :: y :: ys else y :: insertByLen x ys

/-- Python `sorted(items, key=lambda i: len(i[0]), reverse=True)`: a stable
sort of the substitution entries by cleartext length, descending. -/
def sortByLenDesc : List (List Char × List Char) → List (List Char × List Char)
  | [] => []
  | x :: xs => insertByLen x (sortByLenDesc xs)

/-! ## The regex fragment -/

/-- Character classes appearing in the specification's patterns. -/
inductive RClass where
  | notSpace  -- `\S`
  | digit     -- `\d`
  | anyChar   -- `.` (without `re.DOTALL`)
  deriving DecidableEq

def RClass.test : RClass → Char → Bool
  | .notSpace, c => !(isPySpace c)
  | .digit, c => c.isDigit
  | .anyChar, c => c ≠ '\n'

/-- Regular-expression AST for the fragment the configuration patterns use.
`starCls`/`plusCls` are greedy quantifiers over a single character class,
which keeps the backtracking matcher structurally recursive. -/
inductive RE where
  | eps
  | lit (c : Char)
  | cls (k : RClass)
  | seq (a b : RE)
  | plusCls (k : RClass)
  | starCls (k : RClass)
  | group (a : RE)
  deriving DecidableEq

/-- `re.compile(r).groups`: number of capturing groups. -/
def RE.groups : RE → Nat
  | .eps | .lit _ | .cls _ | .plusCls _ | .starCls _ => 0
  | .seq a b => a.groups + b.groups
  | .group a => a.groups + 1

/-- A literal regex such as `secretA` (one `lit` per character). -/
def litSeq : List Char → RE
  | [] => .eps
  | c :: cs => .seq (.lit c) (litSeq cs)

/-- Length of the maximal prefix of `s` whose characters all satisfy `k`. -/
def runLen (k : RClass) (s : List Char) : Nat :=
  (s.takeWhile k.test).length

/-- All ways the regex can match a prefix of `s`, as
(consumed length, captured group) pairs, in Python's backtracking priority
order (greedy quantifiers try longer consumptions first, concatenation
backtracks the left component last).  With at most one capturing group the
head of this list is the match Python's engine selects at this position. -/
def RE.matchesPfx : RE → List Char → List (Nat × Option (List Char))
  | .eps, _ => [(0, none)]
  | .lit c, s =>
    match s with
    | [] => []
    | x :: _ => if x = c then [(1, none)] else []
  | .cls k, s =>
    match s with
    | [] => []
    | x :: _ => if k.test x then [(1, none)] else []
  | .plusCls k, s =>
    (List.range (runLen k s)).map (fun i => (runLen k s - i, none))
  | .starCls k, s =>
    (List.range (runLen k s + 1)).map (fun i => (runLen k s - i, none))
  | .seq a b, s =>
    (a.matchesPfx s).flatMap fun p =>
      (b.matchesPfx (s.drop p.1)).map fun q => (p.1 + q.1, p.2 <|> q.2)
  | .group a, s =>
    (a.matchesPfx s).map fun p => (p.1, p.2 <|> some (s.take p.1))

/-- Fuel-based scanner behind `findall`; the fuel starts at
`s.length + 1`, enough to reach the end of the string. -/
def findallGo (re : RE) : Nat → List Char → List (List Char)
  | 0, _ => []
  | fuel + 1, s =>
    match (re.matchesPfx s).head? with
    | none =>
      match s with
      | [] => []
      | _ :: rest => findallGo re fuel rest
    | some (n, g) =>
      let cap := g.getD (s.take n)
      if n = 0 then
        match s with
        | [] => [cap]
        | _ :: rest => cap :: findallGo re fuel rest
      else cap :: findallGo re fuel (s.drop n)

/-- Python `pattern.findall(s)` for a pattern with (at most) one capturing
group: the captured substrings of the non-overlapping, leftmost matches,
scanning left to right; after an empty match the scan advances by one
character, as in Python 2. -/
def findall (re : RE) (s : List Char) : List (List Char) :=
  findallGo re (s.length + 1) s

/-! ## The Redacter -/

/-- The state of one `Redacter` instance (`Redacter.__init__`):
`substitution_string` is the placeholder base, `patterns` the compiled
regexes, `substitutions` the cleartext → placeholder table (a Python dict,
modelled as an association list with unique keys), `counter` the private
`_counter`, and `validator` the optional external validator, abstracted as
a pure predicate (exit status 0 ↦ `true`). -/
structure Redacter where
  substitution_string : List Char
  patterns : List RE
  substitutions : List (List Char × List Char)
  counter : Nat
  validator : Option (List Char → Bool)

/-- `Redacter.compile_regex`: reject a regex with more than one capturing
group; wrap a regex with zero groups in one group (`'({0})'.format(regex)`);
keep a one-group regex as is.  `re.compile` on an already-parsed regex is
the identity, so the result is the AST itself or its `group` wrapping. -/
def Redacter.compile_regex (re : RE) : Except String RE :=
  if re.groups > 1 then
    .error "regular_expression is invalid. It should have at most 1 capturing group"
  else if re.groups = 0 then .ok (.group re)
  else .ok re

/-- The list comprehension `[Redacter.compile_regex(r) for r in patterns]`:
compile the patterns left to right, propagating the first failure. -/
def compileList : List RE → Except String (List RE)
  | [] => .ok []
  | p :: ps => do
    let c ← Redacter.compile_regex p
    let cs ← compileList ps
    .ok (c :: cs)

/-- `Redacter.__init__`: fail (`AttributeError`) when neither patterns nor
substitutions are given, otherwise compile every pattern (failing on the
first invalid one) and start with `_counter = 0`.  A Python `None` argument
is modelled as the empty list / `none`. -/
def Redacter.init (substitution_string : List Char) (patterns : List RE)
    (substitutions : List (List Char × List Char))
    (validator : Option (List Char → Bool)) : Except String Redacter :=
  if patterns = [] ∧ substitutions = [] then
    .error "At least patterns or substitutions must be defined"
  else do
    let compiled ← compileList patterns
    .ok { substitution_string := substitution_string
          patterns := compiled
          substitutions := substitutions
          counter := 0
          validator := validator }

/-- `Redacter.validate`: `True` when no validator is configured, otherwise
the validator's verdict (subprocess exit status 0). -/
def Redacter.validate (r : Redacter) (secret : List Char) : Bool :=
  match r.validator with
  | none => true
  | some v => v secret

/-- Python `str(n)` for a natural number (what
`'{0}{1}'.format(self.substitution_string, self._counter)` appends). -/
def natStr (n : Nat) : List Char :=
  Nat.toDigits 10 n

/-- The body of the discovery loop of `Redacter.redact` for one candidate
`secret`: skip it if it already has a substitution, otherwise invoke the
validator (recorded in the call log) and, on acceptance, assign the next
placeholder and bump the counter. -/
def discoverStep (acc : Redacter × List (List Char)) (secret : List Char) :
    Redacter × List (List Char) :=
  let (r, calls) := acc
  if (alookup r.substitutions secret).isSome then acc
  else
    let calls' := calls ++ [secret]
    if r.validate secret then
      ({ r with
          substitutions :=
            r.substitutions ++ [(secret, r.substitution_string ++ natStr r.counter)]
          counter := r.counter + 1 }, calls')
    else (r, calls')

/-- `Redacter.redact`: discovery over every pattern's `findall` on the
original line, then replacement of every table entry, longest cleartext
first (`string.replace(secret, self.substitutions[secret])`).  Returns the
post-state, the redacted line, and the validator call log. -/
def Redacter.redact (r : Redacter) (line : List Char) :
    Redacter × List Char × List (List Char) :=
  let disc := r.patterns.foldl
    (fun acc p => (findall p line).foldl discoverStep acc) (r, [])
  let out := (sortByLenDesc disc.1.substitutions).foldl
    (fun s kv => pyReplace s kv.1 ((alookup disc.1.substitutions kv.1).getD kv.2)) line
  (disc.1, out, disc.2)

/-- `read_uncommented_lines` restricted to its pure core: strip each line
and drop blank lines and `#` comments. -/
def read_uncommented_lines (ls : List (List Char)) : List (List Char) :=
  (ls.map pyStrip).filter fun l => !(l.isEmpty || l.headD ' ' = '#')

/-- One line of `Redacter.create`'s substitutions comprehension:
`'='.join(parts[:-1]).strip()` paired with `parts[-1].strip()` where
`parts = line.split('=')`. -/
def parseSubstLine (line : List Char) : List Char × List Char :=
  let parts := pySplitEq line
  (pyStrip (joinEq parts.dropLast), pyStrip (parts.getLastD []))

/-- Python dict assignment `d[k] = v`: overwrite the binding when the key is
present, append it otherwise. -/
def dictSet (tbl : List (List Char × List Char)) (k v : List Char) :
    List (List Char × List Char) :=
  match tbl with
  | [] => [(k, v)]
  | (k', v') :: rest =>
    if k' = k then (k', v) :: rest else (k', v') :: dictSet rest k v

/-- The substitutions dict built by `Redacter.create` from the uncommented
lines of the substitutions file (later duplicate keys overwrite earlier
ones, as in a dict comprehension). -/
def createSubstitutions (ls : List (List Char)) : List (List Char × List Char) :=
  ((read_uncommented_lines ls).map parseSubstLine).foldl
    (fun t kv => dictSet t kv.1 kv.2) []

/-! ## Derived notions used in the statements -/

/-- The candidate secrets one `redact` call examines: every pattern's
`findall` on the (original) line, patterns in configuration order. -/
def Redacter.candidates (r : Redacter) (line : List Char) : List (List Char) :=
  r.patterns.flatMap fun p => findall p line

/-- The cleartexts of a substitution table. -/
def keysOf (tbl : List (List Char × List Char)) : List (List Char) :=
  tbl.map Prod.fst

/-- The new secrets a candidate list contributes, in discovery order: a
candidate is new when it is not among the keys already present (including
those accepted earlier in the same scan) and the validator accepts it. -/
def newSecrets (keys : List (List Char)) (valid : List Char → Bool) :
    List (List Char) → List (List Char)
  | [] => []
  | c :: cs =>
    if c ∈ keys then newSecrets keys valid cs
    else if valid c then c :: newSecrets (keys ++ [c]) valid cs
    else newSecrets keys valid cs

/-- The candidates on which the validator is invoked, in order: every
candidate not already in the table at the moment it is examined (rejected
candidates are not cached, so they can be examined again). -/
def callsOf (keys : List (List Char)) (valid : List Char → Bool) :
    List (List Char) → List (List Char)
  | [] => []
  | c :: cs =>
    if c ∈ keys then callsOf keys valid cs
    else if valid c then c :: callsOf (keys ++ [c]) valid cs
    else c :: callsOf keys valid cs

/-- The table entries appended for the new secrets `ns`, with placeholders
`base ++ natStr c0`, `base ++ natStr (c0+1)`, …. -/
def mkExt (base : List Char) (c0 : Nat) : List (List Char) → List (List Char × List Char)
  | [] => []
  | s :: ss => (s, base ++ natStr c0) :: mkExt base (c0 + 1) ss

/-- The secrets one `redact` call adds to the table, in discovery order. -/
def Redacter.discovered (r : Redacter) (line : List Char) : List (List Char) :=
  (keysOf (r.redact line).1.substitutions).drop r.substitutions.length

/-- Folding `redact` over several lines, keeping only the state (the
caller's per-line loop). -/
def redactLines (r : Redacter) (lines : List (List Char)) : Redacter :=
  lines.foldl (fun st l => (st.redact l).1) r

/-- Python `hay.find(needle)`, as an index option. -/
def strFind (needle : List Char) : List Char → Option Nat
  | [] => if needle = [] then some 0 else none
  | c :: rest =>
    if List.isPrefixOf needle (c :: rest) then some 0
    else (strFind needle rest).map (· + 1)

/-- First-occurrence position of `needle` in `line`, defaulting past the
end when absent. -/
def posOf (needle line : List Char) : Nat :=
  (strFind needle line).getD (line.length + 1)

/-! ## Lemmas about `alookup` -/

theorem alookup_isSome_iff {tbl : List (List Char × List Char)} {k : List Char} :
    (alookup tbl k).isSome = true ↔ k ∈ keysOf tbl := by
  induction tbl with
  | nil => simp [alookup, keysOf]
  | cons kv rest ih =>
    obtain ⟨k', v⟩ := kv
    by_cases h : k' = k
    · simp [alookup, keysOf, h]
    · have hne : ¬ k = k' := fun hk => h hk.symm
      simp only [alookup, h, if_false, keysOf, List.map_cons, List.mem_cons]
      rw [show keysOf rest = rest.map Prod.fst from rfl] at ih
      simp [ih, hne]

theorem alookup_append_of_some {tbl ext : List (List Char × List Char)}
    {k v : List Char} (h : alookup tbl k = some v) :
    alookup (tbl ++ ext) k = some v := by
  induction tbl with
  | nil => simp [alookup] at h
  | cons kv rest ih =>
    obtain ⟨k', v'⟩ := kv
    by_cases hk : k' = k <;> simp_all [alookup]

theorem alookup_append_of_none {tbl ext : List (List Char × List Char)}
    {k : List Char} (h : alookup tbl k = none) :
    alookup (tbl ++ ext) k = alookup ext k := by
  induction tbl with
  | nil => simp [alookup]
  | cons kv rest ih =>
    obtain ⟨k', v'⟩ := kv
    by_cases hk : k' = k <;> simp_all [alookup]

/-! ## The discovery phase -/

theorem validate_update (r : Redacter) (subs : List (List Char × List Char))
    (n : Nat) :
    Redacter.validate { r with substitutions := subs, counter := n } = r.validate := rfl

/-- Master description of the discovery fold: starting from state `r` with
call log `calls`, folding `discoverStep` over a candidate list appends
exactly the `mkExt`-entries of the new secrets, advances the counter by
their number, and logs `callsOf`. -/
theorem foldl_discoverStep (cands : List (List Char)) (r : Redacter)
    (calls : List (List Char)) :
    cands.foldl discoverStep (r, calls) =
      ({ r with
          substitutions := r.substitutions ++
            mkExt r.substitution_string r.counter
              (newSecrets (keysOf r.substitutions) r.validate cands)
          counter := r.counter +
            (newSecrets (keysOf r.substitutions) r.validate cands).length },
        calls ++ callsOf (keysOf r.substitutions) r.validate cands) := by
  induction cands generalizing r calls with
  | nil => simp [newSecrets, callsOf, mkExt]
  | cons c cs ih =>
    by_cases hmem : c ∈ keysOf r.substitutions
    · have hsome : (alookup r.substitutions c).isSome = true :=
        alookup_isSome_iff.mpr hmem
      simp only [List.foldl_cons, discoverStep, hsome, if_true]
      rw [ih r calls]
      simp [newSecrets, callsOf, hmem]
    · have hnone : (alookup r.substitutions c).isSome = false := by
        rw [Bool.eq_false_iff]
        intro h
        exact hmem (alookup_isSome_iff.mp h)
      by_cases hval : r.validate c = true
      · simp only [List.foldl_cons, discoverStep, hnone, Bool.false_eq_true,
          if_false, hval, if_true]
        rw [ih]
        simp only [validate_update]
        have hkeys :
            keysOf (r.substitutions ++
              [(c, r.substitution_string ++ natStr r.counter)]) =
            keysOf r.substitutions ++ [c] := by
          simp [keysOf]
        simp only [hkeys, newSecrets, callsOf, hmem, if_false, hval, if_true]
        refine Prod.ext ?_ (by simp)
        simp [mkExt, List.append_assoc, Nat.add_comm, Nat.add_assoc,
          Nat.add_left_comm]
      · have hval' : r.validate c = false := by
          simpa using hval
        simp only [List.foldl_cons, discoverStep, hnone, Bool.false_eq_true,
          if_false, hval', if_true]
        rw [ih]
        simp [newSecrets, callsOf, hmem, hval']

/-- The new secrets one `redact` call accepts, in discovery order. -/
def Redacter.newlyAccepted (r : Redacter) (line : List Char) : List (List Char) :=
  newSecrets (keysOf r.substitutions) r.validate (r.candidates line)

theorem foldl_patterns_flatMap (line : List Char) (ps : List RE)
    (acc : Redacter × List (List Char)) :
    ps.foldl (fun a p => (findall p line).foldl discoverStep a) acc =
      (ps.flatMap fun p => findall p line).foldl discoverStep acc := by
  induction ps generalizing acc with
  | nil => simp
  | cons p ps ih => simp [List.foldl_append, ih]

/-- The table of the post-state of one `redact` call. -/
def Redacter.postSubs (r : Redacter) (line : List Char) :
    List (List Char × List Char) :=
  r.substitutions ++ mkExt r.substitution_string r.counter (r.newlyAccepted line)

/-- Full description of one `redact` call: the discovery phase appends the
table entries of the newly accepted secrets and advances the counter by
their number (base, patterns and validator untouched); the output is the
line with every entry of the post-discovery table applied as a literal
replace-all, longest cleartext first; the validator was invoked exactly on
the candidates not already in the table when examined. -/
theorem redact_eq (r : Redacter) (line : List Char) :
    r.redact line =
      ({ r with
          substitutions := r.postSubs line
          counter := r.counter + (r.newlyAccepted line).length },
       (sortByLenDesc (r.postSubs line)).foldl
         (fun s kv => pyReplace s kv.1 ((alookup (r.postSubs line) kv.1).getD kv.2))
         line,
       callsOf (keysOf r.substitutions) r.validate (r.candidates line)) := by
  unfold Redacter.redact
  rw [foldl_patterns_flatMap, foldl_discoverStep]
  rfl

/-- The post-state of `redact`. -/
theorem redact_fst (r : Redacter) (line : List Char) :
    (r.redact line).1 =
      { r with
          substitutions := r.postSubs line
          counter := r.counter + (r.newlyAccepted line).length } := by
  rw [redact_eq]

/-- The validator call log of one `redact` call. -/
theorem redact_calls (r : Redacter) (line : List Char) :
    (r.redact line).2.2 =
      callsOf (keysOf r.substitutions) r.validate (r.candidates line) := by
  rw [redact_eq]

/-- The output of `redact`. -/
theorem redact_out (r : Redacter) (line : List Char) :
    (r.redact line).2.1 =
      (sortByLenDesc (r.postSubs line)).foldl
        (fun s kv => pyReplace s kv.1 ((alookup (r.postSubs line) kv.1).getD kv.2))
        line := by
  rw [redact_eq]

/-! ## Sorting lemmas -/

theorem insertByLen_perm (x : List Char × List Char)
    (l : List (List Char × List Char)) : (insertByLen x l).Perm (x :: l) := by
  induction l with
  | nil => simp [insertByLen]
  | cons y ys ih =>
    by_cases h : y.1.length ≤ x.1.length
    · simp [insertByLen, h]
    · simp only [insertByLen, h, if_false]
      exact (ih.cons y).trans (List.Perm.swap x y ys)

theorem sortByLenDesc_perm (tbl : List (List Char × List Char)) :
    (sortByLenDesc tbl).Perm tbl := by
  induction tbl with
  | nil => simp [sortByLenDesc]
  | cons x xs ih => exact (insertByLen_perm x (sortByLenDesc xs)).trans (ih.cons x)

theorem mem_insertByLen {z x : List Char × List Char}
    {l : List (List Char × List Char)} :
    z ∈ insertByLen x l ↔ z = x ∨ z ∈ l :=
  (insertByLen_perm x l).mem_iff.trans (by simp)

theorem insertByLen_pairwise {x : List Char × List Char}
    {l : List (List Char × List Char)}
    (h : l.Pairwise fun a b => b.1.length ≤ a.1.length) :
    (insertByLen x l).Pairwise fun a b => b.1.length ≤ a.1.length := by
  induction l with
  | nil => simp [insertByLen]
  | cons y ys ih =>
    rcases List.pairwise_cons.mp h with ⟨hy, hys⟩
    by_cases hle : y.1.length ≤ x.1.length
    · simp only [insertByLen, hle, if_true]
      refine List.pairwise_cons.mpr ⟨?_, h⟩
      intro z hz
      rcases List.mem_cons.mp hz with rfl | hz
      · exact hle
      · exact le_trans (hy z hz) hle
    · simp only [insertByLen, hle, if_false]
      refine List.pairwise_cons.mpr ⟨?_, ih hys⟩
      intro z hz
      rcases mem_insertByLen.mp hz with rfl | hz
      · exact le_of_lt (Nat.lt_of_not_le hle)
      · exact hy z hz

/-- The replacement order is descending in cleartext length: every entry is
applied no later than any strictly shorter entry, so a secret that is a
substring of a longer secret is substituted only after the longer one. -/
theorem sortByLenDesc_pairwise (tbl : List (List Char × List Char)) :
    (sortByLenDesc tbl).Pairwise fun a b => b.1.length ≤ a.1.length := by
  induction tbl with
  | nil => simp [sortByLenDesc]
  | cons x xs ih => exact insertByLen_pairwise ih

/-! ## Replacement no-op lemmas -/

theorem isPrefixOf_eq_false_of_not_prefix {sec s : List Char}
    (h : ¬ sec <+: s) : List.isPrefixOf sec s = false := by
  rw [Bool.eq_false_iff]
  intro hb
  exact h (List.isPrefixOf_iff_prefix.mp hb)

theorem pyReplaceGo_of_not_infix {sec : List Char} (sub : List Char)
    (fuel : Nat) (s : List Char) (h : ¬ sec <:+: s) :
    pyReplaceGo sec sub fuel s = s := by
  induction fuel generalizing s with
  | zero => cases s <;> rfl
  | succ fuel ih =>
    cases s with
    | nil => rfl
    | cons c rest =>
      have hpre : ¬ sec <+: c :: rest := fun hp => h hp.isInfix
      have hrest : ¬ sec <:+: rest := fun hi => h (List.infix_cons hi)
      simp only [pyReplaceGo, isPrefixOf_eq_false_of_not_prefix hpre,
        Bool.false_eq_true, if_false]
      rw [ih rest hrest]

/-- A cleartext that does not occur in the line leaves it unchanged
(Python `s.replace` with an absent needle). -/
theorem pyReplace_of_not_infix {s sec : List Char} (sub : List Char)
    (h : ¬ sec <:+: s) : pyReplace s sec sub = s := by
  have hne : sec ≠ [] := by
    rintro rfl
    exact h List.nil_infix
  unfold pyReplace
  rw [if_neg hne]
  exact pyReplaceGo_of_not_infix sub s.length s h


/-! ## Decimal representation: `natStr` is injective -/

theorem toDigitsCore_shift (f : Nat) :
    ∀ (n : Nat) (ds : List Char),
      Nat.toDigitsCore 10 f n ds = Nat.toDigitsCore 10 f n [] ++ ds := by
  induction f with
  | zero => intro n ds; rfl
  | succ f ih =>
    intro n ds
    simp only [Nat.toDigitsCore]
    by_cases h : n / 10 = 0
    · simp [h]
    · simp only [h, if_false]
      rw [ih (n / 10) (Nat.digitChar (n % 10) :: ds),
        ih (n / 10) [Nat.digitChar (n % 10)]]
      simp

theorem toDigitsCore_fuel (n : Nat) :
    ∀ (f₁ f₂ : Nat) (ds : List Char), n < f₁ → n < f₂ →
      Nat.toDigitsCore 10 f₁ n ds = Nat.toDigitsCore 10 f₂ n ds := by
  induction n using Nat.strong_induction_on with
  | _ n ih =>
    intro f₁ f₂ ds h₁ h₂
    obtain ⟨g₁, rfl⟩ : ∃ g, f₁ = g + 1 := ⟨f₁ - 1, by omega⟩
    obtain ⟨g₂, rfl⟩ : ∃ g, f₂ = g + 1 := ⟨f₂ - 1, by omega⟩
    simp only [Nat.toDigitsCore]
    by_cases h : n / 10 = 0
    · simp [h]
    · simp only [h, if_false]
      have hn : 0 < n := by
        rcases Nat.eq_zero_or_pos n with rfl | hp
        · simp at h
        · exact hp
      have hlt : n / 10 < n := Nat.div_lt_self hn (by norm_num)
      exact ih (n / 10) hlt g₁ g₂ _ (by omega) (by omega)

theorem toDigitsCore_unfold (n : Nat) :
    Nat.toDigitsCore 10 (n + 1) n [] =
      if n / 10 = 0 then [Nat.digitChar (n % 10)]
      else Nat.toDigitsCore 10 n (n / 10) [Nat.digitChar (n % 10)] := rfl

theorem natStr_eq (n : Nat) :
    natStr n = if n < 10 then [Nat.digitChar n]
      else natStr (n / 10) ++ [Nat.digitChar (n % 10)] := by
  by_cases h : n < 10
  · have h0 : n / 10 = 0 := Nat.div_eq_of_lt h
    rw [if_pos h, show natStr n = Nat.toDigitsCore 10 (n + 1) n [] from rfl,
      toDigitsCore_unfold, if_pos h0, Nat.mod_eq_of_lt h]
  · have h0 : n / 10 ≠ 0 := by
      intro hz
      rw [Nat.div_eq_zero_iff (by norm_num)] at hz
      exact h hz
    have hlt : n / 10 < n := Nat.div_lt_self (by omega) (by norm_num)
    rw [if_neg h, show natStr n = Nat.toDigitsCore 10 (n + 1) n [] from rfl,
      toDigitsCore_unfold, if_neg h0,
      toDigitsCore_fuel (n / 10) n (n / 10 + 1) _ (by omega) (by omega),
      toDigitsCore_shift]
    rfl

theorem natStr_ne_nil (n : Nat) : natStr n ≠ [] := by
  rw [natStr_eq]
  by_cases h : n < 10 <;> simp [h]

theorem digitChar_inj_of_lt {a b : Nat} (ha : a < 10) (hb : b < 10)
    (h : Nat.digitChar a = Nat.digitChar b) : a = b := by
  have : ∀ x y : Fin 10, Nat.digitChar x.val = Nat.digitChar y.val → x = y := by
    decide
  have := this ⟨a, ha⟩ ⟨b, hb⟩ h
  exact congrArg Fin.val this

theorem natStr_inj {m n : Nat} (h : natStr m = natStr n) : m = n := by
  induction m using Nat.strong_induction_on generalizing n with
  | _ m ih =>
    rw [natStr_eq m, natStr_eq n] at h
    by_cases hm : m < 10 <;> by_cases hn : n < 10
    · simp only [hm, hn, if_true, List.cons.injEq] at h
      exact digitChar_inj_of_lt hm hn h.1
    · simp only [hm, hn, if_true, if_false] at h
      cases hc : natStr (n / 10) with
      | nil => exact absurd hc (natStr_ne_nil _)
      | cons x xs =>
        rw [hc] at h
        simp at h
    · simp only [hm, hn, if_true, if_false] at h
      cases hc : natStr (m / 10) with
      | nil => exact absurd hc (natStr_ne_nil _)
      | cons x xs =>
        rw [hc] at h
        simp at h
    · simp only [hm, hn, if_false] at h
      have hrev := congrArg List.reverse h
      simp only [List.reverse_append, List.reverse_cons, List.reverse_nil,
        List.nil_append, List.singleton_append, List.cons.injEq,
        List.reverse_inj] at hrev
      obtain ⟨hd, htl⟩ := hrev
      have hmod : m % 10 = n % 10 :=
        digitChar_inj_of_lt (Nat.mod_lt _ (by norm_num)) (Nat.mod_lt _ (by norm_num)) hd
      have hdiv : m / 10 = n / 10 :=
        ih (m / 10) (Nat.div_lt_self (by omega) (by norm_num)) htl
      omega

/-! ## `mkExt` lemmas -/

theorem mkExt_map_fst (base : List Char) :
    ∀ (c0 : Nat) (ns : List (List Char)), (mkExt base c0 ns).map Prod.fst = ns := by
  intro c0 ns
  induction ns generalizing c0 with
  | nil => rfl
  | cons s ss ih => simp [mkExt, ih]

theorem mem_mkExt_snd {base v : List Char} :
    ∀ {c0 : Nat} {ns : List (List Char)}, v ∈ (mkExt base c0 ns).map Prod.snd →
      ∃ i, i < ns.length ∧ v = base ++ natStr (c0 + i) := by
  intro c0 ns
  induction ns generalizing c0 with
  | nil => simp [mkExt]
  | cons s ss ih =>
    intro hv
    simp only [mkExt, List.map_cons, List.mem_cons] at hv
    rcases hv with rfl | hv
    · exact ⟨0, by simp⟩
    · obtain ⟨i, hi, rfl⟩ := ih hv
      exact ⟨i + 1, by simpa using hi, by ring_nf⟩

/-- The placeholders handed out in one discovery pass are pairwise
distinct: each consumes a fresh counter value and `natStr` is injective. -/
theorem mkExt_snd_nodup (base : List Char) :
    ∀ (c0 : Nat) (ns : List (List Char)),
      ((mkExt base c0 ns).map Prod.snd).Nodup := by
  intro c0 ns
  induction ns generalizing c0 with
  | nil => simp [mkExt]
  | cons s ss ih =>
    simp only [mkExt, List.map_cons, List.nodup_cons]
    refine ⟨?_, ih (c0 + 1)⟩
    intro hmem
    obtain ⟨i, _, heq⟩ := mem_mkExt_snd hmem
    have := natStr_inj (List.append_cancel_left heq)
    omega

/-! ## Helper lemmas for the claims -/

theorem not_mem_callsOf {s : List Char} {valid : List Char → Bool}
    (cands : List (List Char)) :
    ∀ keys : List (List Char), s ∈ keys → s ∉ callsOf keys valid cands := by
  induction cands with
  | nil => intro keys _ h; simp [callsOf] at h
  | cons c cs ih =>
    intro keys hs
    by_cases hmem : c ∈ keys
    · simp only [callsOf, hmem, if_true]
      exact ih keys hs
    · have hne : s ≠ c := fun h => hmem (h ▸ hs)
      by_cases hv : valid c = true
      · simp only [callsOf, hmem, if_false, hv, if_true, List.mem_cons]
        rintro (rfl | hin)
        · exact hne rfl
        · exact ih (keys ++ [c]) (by simp [hs]) hin
      · have hv' : valid c = false := by simpa using hv
        simp only [callsOf, hmem, if_false, hv', Bool.false_eq_true, if_false,
          List.mem_cons]
        rintro (rfl | hin)
        · exact hne rfl
        · exact ih keys hs hin

theorem redact_preserves_entry {r : Redacter} {s p : List Char}
    (h : alookup r.substitutions s = some p) (line : List Char) :
    alookup ((r.redact line).1).substitutions s = some p := by
  rw [redact_fst]
  exact alookup_append_of_some h

theorem redactLines_preserves_entry {s p : List Char} :
    ∀ (lines : List (List Char)) (r : Redacter),
      alookup r.substitutions s = some p →
      alookup (redactLines r lines).substitutions s = some p := by
  intro lines
  induction lines with
  | nil => intro r h; exact h
  | cons l ls ih =>
    intro r h
    exact ih _ (redact_preserves_entry h l)

theorem init_counter_zero {b : List Char} {ps : List RE}
    {ss : List (List Char × List Char)} {v : Option (List Char → Bool)}
    {r0 : Redacter} (h : Redacter.init b ps ss v = .ok r0) : r0.counter = 0 := by
  unfold Redacter.init at h
  by_cases hc : ps = [] ∧ ss = []
  · rw [if_pos hc] at h
    exact Except.noConfusion h
  · rw [if_neg hc] at h
    cases hm : compileList ps with
    | error e =>
      rw [hm] at h
      exact Except.noConfusion h
    | ok l =>
      rw [hm] at h
      cases (show Except.ok
          { substitution_string := b, patterns := l, substitutions := ss,
            counter := 0, validator := v } = Except.ok r0 from h)
      rfl

/-! ## Concrete instances (from the repository's tests) -/

/-- `Redacter('redact', substitutions={'secretA': 'x'})`. -/
def rSubA : Redacter :=
  { substitution_string := "redact".toList
    patterns := []
    substitutions := [("secretA".toList, "x".toList)]
    counter := 0
    validator := none }

/-- `Redacter('redact', patterns=['secretA'])` (the zero-group pattern is
wrapped by `compile_regex`). -/
def rPatA : Redacter :=
  { substitution_string := "redact".toList
    patterns := [.group (litSeq "secretA".toList)]
    substitutions := []
    counter := 0
    validator := none }

/-! ## Claims -/

/-- C1: stability of the substitution table.  Once a cleartext `s` is in
the table with placeholder `p` (pre-seeded or discovered), every later
`redact` call leaves that entry in place with the same placeholder — both
for a single call and for any sequence of calls — and re-encountering `s`
as a candidate causes no validator invocation (hence no re-validation and
no new assignment). -/
theorem C1_substitution_table_stable (r : Redacter) (s p : List Char)
    (h : alookup r.substitutions s = some p) :
    (∀ line, alookup ((r.redact line).1).substitutions s = some p ∧
      s ∉ (r.redact line).2.2) ∧
    (∀ lines, alookup (redactLines r lines).substitutions s = some p) := by
  constructor
  · intro line
    refine ⟨redact_preserves_entry h line, ?_⟩
    rw [redact_calls]
    exact not_mem_callsOf _ _ (alookup_isSome_iff.mp (by simp [h]))
  · intro lines
    exact redactLines_preserves_entry lines r h

theorem C1_substitution_table_stable_witness :
    alookup rSubA.substitutions "secretA".toList = some "x".toList ∧
    (alookup ((rSubA.redact "b secretA c".toList).1).substitutions
        "secretA".toList = some "x".toList ∧
      "secretA".toList ∉ (rSubA.redact "b secretA c".toList).2.2) ∧
    alookup (redactLines rSubA ["secretA".toList, "y".toList]).substitutions
      "secretA".toList = some "x".toList := by
  have h : alookup rSubA.substitutions "secretA".toList = some "x".toList := by
    decide
  exact ⟨h, (C1_substitution_table_stable rSubA _ _ h).1 _,
    (C1_substitution_table_stable rSubA _ _ h).2 _⟩

/-- C2: the replacement phase.  After discovery, `redact` folds a literal
replace-all (`pyReplace`) of every entry of the post-discovery table over
the line, in `sortByLenDesc` order, which is a permutation of the table
sorted by cleartext length, descending (so a secret that is a substring of
a longer mapped secret is applied only after the longer one); and with the
pre-seeded table `{"secretA": "x"}`, `redact("secretAsecretA") = "xx"`. -/
theorem C2_replacement_phase :
    (∀ tbl, (sortByLenDesc tbl).Perm tbl ∧
      (sortByLenDesc tbl).Pairwise fun a b => b.1.length ≤ a.1.length) ∧
    (∀ (r : Redacter) (line : List Char),
      (r.redact line).1.substitutions = r.postSubs line ∧
      (r.redact line).2.1 =
        (sortByLenDesc (r.postSubs line)).foldl
          (fun s kv =>
            pyReplace s kv.1 ((alookup (r.postSubs line) kv.1).getD kv.2))
          line) ∧
    Redacter.init "redact".toList [] [("secretA".toList, "x".toList)] none =
      .ok rSubA ∧
    (rSubA.redact "secretAsecretA".toList).2.1 = "xx".toList := by
  refine ⟨fun tbl => ⟨sortByLenDesc_perm tbl, sortByLenDesc_pairwise tbl⟩,
    fun r line => ⟨by rw [redact_fst], redact_out r line⟩, rfl, by decide⟩

/-- C3: placeholder assignment.  The counter starts at 0 at construction;
one `redact` call extends the table by exactly the `mkExt` entries of the
newly accepted secrets — the i-th new secret gets placeholder
`substitution_string ++ natStr (counter + i)` — and advances the single
shared counter by their number, so the placeholders handed out are pairwise
distinct and their counter values are never reused. -/
theorem C3_placeholder_assignment :
    (∀ (b : List Char) (ps : List RE) (ss : List (List Char × List Char))
      (v : Option (List Char → Bool)) (r0 : Redacter),
      Redacter.init b ps ss v = .ok r0 → r0.counter = 0) ∧
    (∀ (r : Redacter) (line : List Char),
      (r.redact line).1.substitutions =
        r.substitutions ++
          mkExt r.substitution_string r.counter (r.newlyAccepted line) ∧
      (r.redact line).1.counter = r.counter + (r.newlyAccepted line).length ∧
      (mkExt r.substitution_string r.counter (r.newlyAccepted line)).map
        Prod.fst = r.newlyAccepted line ∧
      (∀ ph ∈ (mkExt r.substitution_string r.counter
          (r.newlyAccepted line)).map Prod.snd,
        ∃ i, i < (r.newlyAccepted line).length ∧
          ph = r.substitution_string ++ natStr (r.counter + i)) ∧
      ((mkExt r.substitution_string r.counter
          (r.newlyAccepted line)).map Prod.snd).Nodup) := by
  refine ⟨fun b ps ss v r0 h => init_counter_zero h, fun r line => ?_⟩
  exact ⟨by rw [redact_fst]; rfl, by rw [redact_fst], mkExt_map_fst _ _ _,
    fun ph hph => mem_mkExt_snd hph, mkExt_snd_nodup _ _ _⟩

theorem C3_placeholder_assignment_witness :
    rSubA.counter = 0 ∧
    (rPatA.redact "secretA".toList).1.counter =
      rPatA.counter + (rPatA.newlyAccepted "secretA".toList).length := by
  constructor
  · exact C3_placeholder_assignment.1 "redact".toList []
      [("secretA".toList, "x".toList)] none rSubA rfl
  · exact (C3_placeholder_assignment.2 rPatA "secretA".toList).2.1

/-! ## Rejection / no-op helpers -/

theorem alookup_eq_none_iff {tbl : List (List Char × List Char)}
    {k : List Char} : alookup tbl k = none ↔ k ∉ keysOf tbl := by
  rw [← alookup_isSome_iff]
  cases alookup tbl k <;> simp

theorem mem_newSecrets_imp {valid : List Char → Bool} {s : List Char} :
    ∀ (cands keys : List (List Char)), s ∈ newSecrets keys valid cands →
      valid s = true ∧ s ∉ keys := by
  intro cands
  induction cands with
  | nil => intro keys h; simp [newSecrets] at h
  | cons c cs ih =>
    intro keys h
    by_cases hmem : c ∈ keys
    · rw [newSecrets, if_pos hmem] at h
      exact ih keys h
    · by_cases hv : valid c = true
      · rw [newSecrets, if_neg hmem, if_pos hv] at h
        rcases List.mem_cons.mp h with rfl | h
        · exact ⟨hv, hmem⟩
        · have := ih (keys ++ [c]) h
          exact ⟨this.1, fun hk => this.2 (by simp [hk])⟩
      · rw [newSecrets, if_neg hmem, if_neg hv] at h
        exact ih keys h

theorem newSecrets_eq_nil {valid : List Char → Bool} :
    ∀ (cands keys : List (List Char)),
      (∀ c ∈ cands, c ∉ keys → valid c = false) →
      newSecrets keys valid cands = [] := by
  intro cands
  induction cands with
  | nil => intro keys _; rfl
  | cons c cs ih =>
    intro keys h
    by_cases hmem : c ∈ keys
    · rw [newSecrets, if_pos hmem]
      exact ih keys fun d hd => h d (List.mem_cons_of_mem c hd)
    · have hv : valid c = false := h c (List.mem_cons_self c cs) hmem
      rw [newSecrets, if_neg hmem, if_neg (by simp [hv])]
      exact ih keys fun d hd => h d (List.mem_cons_of_mem c hd)

theorem redact_fst_of_no_new {r : Redacter} {line : List Char}
    (h : r.newlyAccepted line = []) : (r.redact line).1 = r := by
  rw [redact_fst]
  unfold Redacter.postSubs
  rw [h]
  simp [mkExt]

theorem foldl_pyReplace_of_not_infix (f : List Char × List Char → List Char) :
    ∀ (l : List (List Char × List Char)) (line : List Char),
      (∀ kv ∈ l, ¬ kv.1 <:+: line) →
      l.foldl (fun s kv => pyReplace s kv.1 (f kv)) line = line := by
  intro l
  induction l with
  | nil => intro line _; rfl
  | cons kv rest ih =>
    intro line h
    rw [List.foldl_cons,
      pyReplace_of_not_infix (f kv) (h kv (List.mem_cons_self kv rest))]
    exact ih line fun kv' hkv' => h kv' (List.mem_cons_of_mem kv hkv')

theorem redact_out_of_no_occurrence {r : Redacter} {line : List Char}
    (h : r.newlyAccepted line = [])
    (hkeys : ∀ k ∈ keysOf r.substitutions, ¬ k <:+: line) :
    (r.redact line).2.1 = line := by
  rw [redact_out]
  have hpost : r.postSubs line = r.substitutions := by
    unfold Redacter.postSubs
    rw [h]
    simp [mkExt]
  rw [hpost]
  refine foldl_pyReplace_of_not_infix _ _ line fun kv hkv => ?_
  exact hkeys kv.1
    (List.mem_map_of_mem Prod.fst ((sortByLenDesc_perm r.substitutions).mem_iff.mp hkv))

theorem flatMap_findall_eq_nil {line : List Char} :
    ∀ ps : List RE, (∀ p ∈ ps, findall p line = []) →
      (ps.flatMap fun p => findall p line) = [] := by
  intro ps
  induction ps with
  | nil => intro _; rfl
  | cons p rest ih =>
    intro h
    rw [List.flatMap_cons, h p (List.mem_cons_self p rest),
      ih fun q hq => h q (List.mem_cons_of_mem p hq)]
    rfl

/-- `Redacter('redact', patterns=['secretA'], validator=...)` with a
validator that rejects everything (exit status non-zero on every input). -/
def vReject : List Char → Bool := fun _ => false

def rVal : Redacter :=
  { substitution_string := "redact".toList
    patterns := [.group (litSeq "secretA".toList)]
    substitutions := []
    counter := 0
    validator := some vReject }

/-- C5: validator rejection.  With a configured validator `v`, (a) a
candidate on which `v` reports a non-zero exit status (`v s = false`) and
which is not already in the table is never added to the table by `redact`;
(b) if `v` rejects every candidate of the line that is not already in the
table, the state is left unchanged, and if moreover no existing cleartext
occurs in the line, the line is returned unmodified. -/
theorem C5_validator_rejection (r : Redacter) (v : List Char → Bool)
    (hv : r.validator = some v) (line : List Char) :
    (∀ s, v s = false → alookup r.substitutions s = none →
      alookup ((r.redact line).1).substitutions s = none) ∧
    ((∀ c ∈ r.candidates line, alookup r.substitutions c = none →
        v c = false) →
      (r.redact line).1 = r ∧
      ((∀ k ∈ keysOf r.substitutions, ¬ k <:+: line) →
        (r.redact line).2.1 = line)) := by
  have hval : ∀ s, r.validate s = v s := by
    intro s
    unfold Redacter.validate
    rw [hv]
  constructor
  · intro s hvs hnone
    rw [redact_fst]
    show alookup (r.postSubs line) s = none
    unfold Redacter.postSubs
    rw [alookup_append_of_none hnone]
    rw [alookup_eq_none_iff, keysOf, mkExt_map_fst]
    intro hmem
    have := (mem_newSecrets_imp _ _ hmem).1
    rw [hval s, hvs] at this
    exact Bool.noConfusion this
  · intro hrej
    have hns : r.newlyAccepted line = [] := by
      unfold Redacter.newlyAccepted
      refine newSecrets_eq_nil _ _ fun c hc hck => ?_
      rw [hval c]
      exact hrej c hc (alookup_eq_none_iff.mpr hck)
    exact ⟨redact_fst_of_no_new hns,
      fun hkeys => redact_out_of_no_occurrence hns hkeys⟩

theorem C5_validator_rejection_witness :
    vReject "secretA".toList = false ∧
    alookup ((rVal.redact "secretA".toList).1).substitutions
      "secretA".toList = none ∧
    (rVal.redact "secretA".toList).1 = rVal ∧
    (rVal.redact "secretA".toList).2.1 = "secretA".toList := by
  have h := C5_validator_rejection rVal vReject rfl "secretA".toList
  have hrej : ∀ c ∈ rVal.candidates "secretA".toList,
      alookup rVal.substitutions c = none → vReject c = false :=
    fun c _ _ => rfl
  exact ⟨rfl, h.1 "secretA".toList rfl rfl, (h.2 hrej).1,
    (h.2 hrej).2 fun k hk => absurd hk (List.not_mem_nil k)⟩

/-- C9: frame property on non-matching input.  When no configured pattern
produces any match in the line, `redact` leaves the whole state (table and
counter) unchanged and invokes the validator on nothing; if moreover no
table cleartext occurs as a substring of the line, the line is returned
itself unchanged. -/
theorem C9_noop_on_nonmatching (r : Redacter) (line : List Char)
    (h : ∀ p ∈ r.patterns, findall p line = []) :
    (r.redact line).1 = r ∧ (r.redact line).2.2 = [] ∧
    ((∀ k ∈ keysOf r.substitutions, ¬ k <:+: line) →
      (r.redact line).2.1 = line) := by
  have hcand : r.candidates line = [] := flatMap_findall_eq_nil r.patterns h
  have hns : r.newlyAccepted line = [] := by
    unfold Redacter.newlyAccepted
    rw [hcand]
    rfl
  refine ⟨redact_fst_of_no_new hns, ?_,
    fun hkeys => redact_out_of_no_occurrence hns hkeys⟩
  rw [redact_calls, hcand]
  rfl

theorem C9_noop_on_nonmatching_witness :
    (∀ p ∈ rPatA.patterns, findall p "zzz".toList = []) ∧
    (rPatA.redact "zzz".toList).1 = rPatA ∧
    (rPatA.redact "zzz".toList).2.2 = [] ∧
    (rPatA.redact "zzz".toList).2.1 = "zzz".toList := by
  have hp : ∀ p ∈ rPatA.patterns, findall p "zzz".toList = [] := by decide
  have h := C9_noop_on_nonmatching rPatA "zzz".toList hp
  exact ⟨hp, h.1, h.2.1, h.2.2 fun k hk => absurd hk (List.not_mem_nil k)⟩

/-- A second instance with the same configuration as `rSubA`
(cf. `test_redact_with_patterns`, which runs two equal instances). -/
def rSubA2 : Redacter :=
  { substitution_string := "redact".toList
    patterns := []
    substitutions := [("secretA".toList, "x".toList)]
    counter := 0
    validator := none }

/-- C10: determinism without a validator.  Two Redacter instances with no
validator and equal bases, pattern lists, tables and counters produce, on
the same line, the same output, the same end state and the same (empty or
equal) validator call log: `redact` is a pure function of the state and the
line. -/
theorem C10_deterministic_without_validator (r₁ r₂ : Redacter)
    (line : List Char)
    (hb : r₁.substitution_string = r₂.substitution_string)
    (hp : r₁.patterns = r₂.patterns)
    (hs : r₁.substitutions = r₂.substitutions)
    (hc : r₁.counter = r₂.counter)
    (hv₁ : r₁.validator = none) (hv₂ : r₂.validator = none) :
    r₁.redact line = r₂.redact line := by
  have : r₁ = r₂ := by
    cases r₁
    cases r₂
    simp_all
  rw [this]

theorem C10_deterministic_without_validator_witness :
    rSubA.redact "secretAsecretA".toList =
      rSubA2.redact "secretAsecretA".toList :=
  C10_deterministic_without_validator rSubA rSubA2 "secretAsecretA".toList
    rfl rfl rfl rfl rfl rfl

/-! ## Construction errors (C6) and zero-group wrapping (C7) -/

theorem compile_regex_error_iff {p : RE} :
    (∃ e, Redacter.compile_regex p = .error e) ↔ 1 < p.groups := by
  unfold Redacter.compile_regex
  by_cases h : p.groups > 1
  · simp [h]
  · by_cases h0 : p.groups = 0 <;> simp [h, h0]


theorem compileList_error_iff :
    ∀ ps : List RE,
      (∃ e, compileList ps = .error e) ↔ ∃ p ∈ ps, 1 < p.groups := by
  intro ps
  induction ps with
  | nil =>
    constructor
    · rintro ⟨e, he⟩
      exact Except.noConfusion he
    · rintro ⟨p, hp, _⟩
      exact absurd hp (List.not_mem_nil p)
  | cons p rest ih =>
    cases hc : Redacter.compile_regex p with
    | error e =>
      have hp : 1 < p.groups := compile_regex_error_iff.mp ⟨e, hc⟩
      have hL : compileList (p :: rest) = .error e := by
        show (Redacter.compile_regex p >>= fun c =>
          compileList rest >>= fun cs => Except.ok (c :: cs)) = Except.error e
        rw [hc]
        rfl
      simp only [hL]
      constructor
      · intro _
        exact ⟨p, List.mem_cons_self p rest, hp⟩
      · intro _
        exact ⟨e, rfl⟩
    | ok c =>
      have hp : ¬ 1 < p.groups := by
        intro hgt
        obtain ⟨e, he⟩ := compile_regex_error_iff.mpr hgt
        rw [hc] at he
        exact Except.noConfusion he
      cases hm : compileList rest with
      | error e =>
        have hrest : ∃ q ∈ rest, 1 < q.groups := ih.mp ⟨e, hm⟩
        have hL : compileList (p :: rest) = .error e := by
          show (Redacter.compile_regex p >>= fun c =>
            compileList rest >>= fun cs => Except.ok (c :: cs)) = Except.error e
          rw [hc, hm]
          rfl
        simp only [hL]
        constructor
        · intro _
          obtain ⟨q, hq, hqg⟩ := hrest
          exact ⟨q, List.mem_cons_of_mem p hq, hqg⟩
        · intro _
          exact ⟨e, rfl⟩
      | ok l =>
        have hL : compileList (p :: rest) = .ok (c :: l) := by
          show (Redacter.compile_regex p >>= fun c =>
            compileList rest >>= fun cs => Except.ok (c :: cs)) = Except.ok (c :: l)
          rw [hc, hm]
          rfl
        have hnone : ¬ ∃ q ∈ rest, 1 < q.groups := fun hx => by
          obtain ⟨e, he⟩ := ih.mpr hx
          rw [hm] at he
          exact Except.noConfusion he
        simp only [hL]
        constructor
        · rintro ⟨e, he⟩
          exact Except.noConfusion he
        · rintro ⟨q, hq, hqg⟩
          rcases List.mem_cons.mp hq with rfl | hq
          · exact absurd hqg hp
          · exact absurd ⟨q, hq, hqg⟩ hnone

theorem exceptBind_error {α β : Type} (e : String) (f : α → Except String β) :
    (Except.error e >>= f : Except String β) = Except.error e := rfl

theorem exceptBind_ok {α β : Type} (a : α) (f : α → Except String β) :
    (Except.ok a >>= f : Except String β) = f a := rfl

/-- C6: construction fails with a configuration error (`AttributeError`)
exactly when neither patterns nor pre-seeded substitutions are supplied, or
some supplied pattern has more than one capturing group; in every other
case construction succeeds. -/
theorem C6_configuration_error (b : List Char) (ps : List RE)
    (ss : List (List Char × List Char)) (v : Option (List Char → Bool)) :
    ((∃ e, Redacter.init b ps ss v = .error e) ↔
      ((ps = [] ∧ ss = []) ∨ ∃ p ∈ ps, 1 < p.groups)) ∧
    ((∃ r0, Redacter.init b ps ss v = .ok r0) ↔
      ¬ ((ps = [] ∧ ss = []) ∨ ∃ p ∈ ps, 1 < p.groups)) := by
  have herr : (∃ e, Redacter.init b ps ss v = .error e) ↔
      ((ps = [] ∧ ss = []) ∨ ∃ p ∈ ps, 1 < p.groups) := by
    unfold Redacter.init
    by_cases hc : ps = [] ∧ ss = []
    · rw [if_pos hc]
      simp [hc]
    · rw [if_neg hc]
      cases hm : compileList ps with
      | error e =>
        simp only [hm, exceptBind_error]
        constructor
        · intro _
          exact Or.inr ((compileList_error_iff ps).mp ⟨e, hm⟩)
        · intro _
          exact ⟨e, rfl⟩
      | ok l =>
        simp only [hm, exceptBind_ok]
        constructor
        · rintro ⟨e', he'⟩
          exact Except.noConfusion he'
        · rintro (hcc | hbad)
          · exact absurd hcc hc
          · obtain ⟨e, he⟩ := (compileList_error_iff ps).mpr hbad
            rw [hm] at he
            exact Except.noConfusion he
  refine ⟨herr, ?_⟩
  cases hi : Redacter.init b ps ss v with
  | error e =>
    constructor
    · rintro ⟨r0, hr0⟩
      exact Except.noConfusion hr0
    · intro hnot
      exact absurd (herr.mp ⟨e, hi⟩) hnot
  | ok r0 =>
    constructor
    · intro _ hbad
      obtain ⟨e, he⟩ := herr.mpr hbad
      rw [hi] at he
      exact Except.noConfusion he
    · intro _
      exact ⟨r0, rfl⟩

theorem compile_regex_of_groups_zero {p : RE} (h : p.groups = 0) :
    Redacter.compile_regex p = Redacter.compile_regex (.group p) := by
  unfold Redacter.compile_regex
  simp [RE.groups, h]

/-- C7: zero-group wrapping equivalence.  For a pattern with zero capturing
groups, construction with the raw pattern yields exactly the same Redacter
(hence the same `redact` outputs and the same table/counter evolution, since
`redact` is a function of the state) as construction with the pattern
manually wrapped in one capturing group, wherever it occurs in the pattern
list. -/
theorem C7_zero_group_wrapping (p : RE) (h : p.groups = 0) (b : List Char)
    (ps₁ ps₂ : List RE) (ss : List (List Char × List Char))
    (v : Option (List Char → Bool)) :
    Redacter.init b (ps₁ ++ p :: ps₂) ss v =
      Redacter.init b (ps₁ ++ .group p :: ps₂) ss v := by
  have hmap : compileList (ps₁ ++ p :: ps₂) =
      compileList (ps₁ ++ .group p :: ps₂) := by
    induction ps₁ with
    | nil =>
      rw [List.nil_append, List.nil_append]
      show (Redacter.compile_regex p >>= fun c =>
          compileList ps₂ >>= fun cs => Except.ok (c :: cs)) =
        (Redacter.compile_regex (.group p) >>= fun c =>
          compileList ps₂ >>= fun cs => Except.ok (c :: cs))
      rw [compile_regex_of_groups_zero h]
    | cons q qs ih =>
      rw [List.cons_append, List.cons_append]
      show (Redacter.compile_regex q >>= fun c =>
          compileList (qs ++ p :: ps₂) >>= fun cs => Except.ok (c :: cs)) =
        (Redacter.compile_regex q >>= fun c =>
          compileList (qs ++ .group p :: ps₂) >>= fun cs => Except.ok (c :: cs))
      rw [ih]
  unfold Redacter.init
  rw [hmap, if_neg (by simp), if_neg (by simp)]

theorem C7_zero_group_wrapping_witness :
    RE.groups (litSeq "secretA".toList) = 0 ∧
    Redacter.init "redact".toList ([] ++ litSeq "secretA".toList :: []) [] none =
      Redacter.init "redact".toList
        ([] ++ RE.group (litSeq "secretA".toList) :: []) [] none :=
  ⟨by decide,
    C7_zero_group_wrapping (litSeq "secretA".toList) (by decide)
      "redact".toList [] [] [] none⟩

/-! ## Discovery order (C4) -/

/-- The raw pattern string `secretA` (zero capturing groups). -/
def pat1 : RE := litSeq "secretA".toList

/-- The raw pattern string `secret: (\S+)` (one capturing group). -/
def pat2 : RE := .seq (litSeq "secret: ".toList) (.group (.plusCls .notSpace))

/-- `Redacter('redact', patterns=['secretA', 'secret: (\S+)'])` after
`compile_regex` (the zero-group pattern gets wrapped). -/
def rTwoPat : Redacter :=
  { substitution_string := "redact".toList
    patterns := [.group pat1, pat2]
    substitutions := []
    counter := 0
    validator := none }

theorem discovered_eq_newlyAccepted (r : Redacter) (line : List Char) :
    r.discovered line = r.newlyAccepted line := by
  unfold Redacter.discovered
  rw [redact_fst]
  show (keysOf (r.postSubs line)).drop r.substitutions.length =
    r.newlyAccepted line
  unfold Redacter.postSubs
  rw [keysOf, List.map_append, mkExt_map_fst]
  rw [show r.substitutions.length = (r.substitutions.map Prod.fst).length by
    simp]
  exact List.drop_left _ _

/-- C4, counterexample to the claim as stated: with the two patterns
`['secretA', 'secret: (\S+)']`, on the line `"secret: x secretA"` the code
discovers `secretA` (the first pattern, textual position 10) before `x`
(the second pattern, textual position 8), because discovery iterates the
pattern list first — so the discovery order does NOT follow textual
appearance in the line. -/
theorem C4_discovery_order_counterexample :
    rTwoPat.discovered "secret: x secretA".toList =
      ["secretA".toList, "x".toList] ∧
    posOf "x".toList "secret: x secretA".toList = 8 ∧
    posOf "secretA".toList "secret: x secretA".toList = 10 ∧
    ¬ List.Pairwise
      (fun a b => posOf a "secret: x secretA".toList ≤
        posOf b "secret: x secretA".toList)
      (rTwoPat.discovered "secret: x secretA".toList) := by
  refine ⟨by decide, by decide, by decide, by decide⟩

/-- C4 (amended): for the Redacter built from the two patterns
`['secretA', 'secret: (\S+)']` on the same base, the newly discovered
secrets of one `redact` call (and hence the counter values they receive)
are, in order, the new candidates of the first pattern's `findall` (which
scans the line left to right) followed by those of the second pattern's
`findall` — pattern-list order first, textual order within one pattern —
and every assignment bumps the one shared counter of the instance,
whichever pattern produced the match.  On a line where the first pattern's
match precedes the second's, this coincides with textual order. -/
theorem C4_discovery_order_amended :
    Redacter.init "redact".toList [pat1, pat2] [] none = .ok rTwoPat ∧
    (∀ line : List Char,
      rTwoPat.discovered line =
        newSecrets [] rTwoPat.validate
          (findall (.group pat1) line ++ findall pat2 line) ∧
      (rTwoPat.redact line).1.counter = (rTwoPat.discovered line).length) ∧
    rTwoPat.discovered "secretA then secret: zz".toList =
      ["secretA".toList, "zz".toList] := by
  refine ⟨rfl, fun line => ⟨?_, ?_⟩, by decide⟩
  · rw [discovered_eq_newlyAccepted]
    unfold Redacter.newlyAccepted Redacter.candidates
    show newSecrets [] rTwoPat.validate
        (findall (.group pat1) line ++ (findall pat2 line ++ [])) = _
    rw [List.append_nil]
  · rw [redact_fst, discovered_eq_newlyAccepted]
    simp [rTwoPat]

/-! ## Substitution-file parsing (C8) -/

theorem pySplitEq_ne_nil : ∀ s : List Char, pySplitEq s ≠ [] := by
  intro s
  induction s with
  | nil => simp [pySplitEq]
  | cons c rest ih =>
    rw [pySplitEq]
    cases hp : pySplitEq rest with
    | nil => simp
    | cons p ps => by_cases h : c = '=' <;> simp [h]

theorem pySplitEq_of_no_eq {v : List Char} (h : '=' ∉ v) :
    pySplitEq v = [v] := by
  induction v with
  | nil => rfl
  | cons c rest ih =>
    have hc : c ≠ '=' := fun hc => h (hc ▸ List.mem_cons_self c rest)
    have hrest : '=' ∉ rest := fun hr => h (List.mem_cons_of_mem c hr)
    rw [pySplitEq, ih hrest]
    simp [hc]

theorem pySplitEq_append {k v : List Char} (h : '=' ∉ v) :
    pySplitEq (k ++ '=' :: v) = pySplitEq k ++ [v] := by
  induction k with
  | nil =>
    rw [List.nil_append]
    simp [pySplitEq, pySplitEq_of_no_eq h]
  | cons c k' ih =>
    rw [List.cons_append, pySplitEq, ih]
    cases hp : pySplitEq k' with
    | nil => exact absurd hp (pySplitEq_ne_nil k')
    | cons p ps =>
      by_cases hc : c = '=' <;> simp [pySplitEq, hp, hc]

theorem joinEq_pySplitEq : ∀ s : List Char, joinEq (pySplitEq s) = s := by
  intro s
  induction s with
  | nil => rfl
  | cons c rest ih =>
    rw [pySplitEq]
    cases hp : pySplitEq rest with
    | nil => exact absurd hp (pySplitEq_ne_nil rest)
    | cons p ps =>
      rw [hp] at ih
      by_cases hc : c = '='
      · subst hc
        simp only [if_true]
        cases ps with
        | nil => simpa [joinEq] using ih
        | cons q qs => simpa [joinEq] using ih
      · simp only [hc, if_false]
        cases ps with
        | nil =>
          simp only [joinEq] at ih ⊢
          rw [ih]
        | cons q qs =>
          simp only [joinEq] at ih ⊢
          rw [List.cons_append, ih]

/-- C8: substitution-file parsing.  `Redacter.create` builds its dict from
exactly the stripped non-blank, non-comment lines, and each such line is
split on its LAST `'='`: writing the line as `k ++ '=' :: v` with no `'='`
in `v`, the cleartext key is `k` (which may itself contain `'='`) and the
placeholder value is the trailing segment `v`, both trimmed of surrounding
whitespace. -/
theorem C8_substitution_parsing :
    (∀ ls : List (List Char),
      createSubstitutions ls =
        ((read_uncommented_lines ls).map parseSubstLine).foldl
          (fun t kv => dictSet t kv.1 kv.2) []) ∧
    ∀ k v : List Char, '=' ∉ v →
      parseSubstLine (k ++ '=' :: v) = (pyStrip k, pyStrip v) := by
  refine ⟨fun ls => rfl, fun k v h => ?_⟩
  unfold parseSubstLine
  rw [pySplitEq_append h]
  show (pyStrip (joinEq (pySplitEq k ++ [v]).dropLast),
      pyStrip ((pySplitEq k ++ [v]).getLastD [])) = (pyStrip k, pyStrip v)
  rw [List.dropLast_concat, List.getLastD_concat, joinEq_pySplitEq]

theorem C8_substitution_parsing_witness :
    ('=' ∉ " c ".toList) ∧
    parseSubstLine ("a = b".toList ++ '=' :: " c ".toList) =
      (pyStrip "a = b".toList, pyStrip " c ".toList) :=
  ⟨by decide, C8_substitution_parsing.2 "a = b".toList " c ".toList (by decide)⟩
